import Mathlib

/-!
Verification of the batch/metric utilities in `src/utils.py` of the
persephone repository.  The Python functions are shallowly embedded as Lean
functions: numpy arrays become (nested) lists, integer label values become
`ℤ`, floating point scalars become `ℚ`, and Python exceptions (IndexError,
ZeroDivisionError, numpy reduction errors, failed assertions) become `Option`
results, with `none` marking the raising branch.
-/

namespace Persephone

/-- Model of `nltk.metrics.distance.edit_distance(ref, hyp)` with the default
arguments (unit costs, no transpositions): the standard Levenshtein distance,
here Mathlib's `levenshtein` with the all-one cost structure. -/
def edit_distance (xs ys : List ℤ) : ℕ :=
  levenshtein Levenshtein.defaultCost xs ys

/-- The list comprehension `[phn_i for phn_i in seq if phn_i != 0]` used by
`batch_per` to strip the padding value 0 from a label sequence. -/
def strip0 (l : List ℤ) : List ℤ :=
  l.filter (fun x => x != 0)

/-- One iteration of the loop in `batch_per` at index `i`: look up
`refs[i]` and `hyps[i]` (an out-of-range access raises, hence `none`), strip
the padding zeros, and add `edit_distance(ref, hyp)/len(ref)` to the
accumulator; a zero-length stripped reference raises `ZeroDivisionError`,
hence `none`. -/
def per_step (hyps refs : List (List ℤ)) (acc : ℚ) (i : ℕ) : Option ℚ :=
  match refs[i]?, hyps[i]? with
  | some refSeq, some hypSeq =>
    if (strip0 refSeq).length = 0 then none
    else some (acc +
      (edit_distance (strip0 refSeq) (strip0 hypSeq) : ℚ) /
        ((strip0 refSeq).length : ℚ))
  | _, _ => none

/-- The `for i in range(len(hyps))` loop of `batch_per`, folding `per_step`
over the index list. -/
def per_loop (hyps refs : List (List ℤ)) : List ℕ → ℚ → Option ℚ
  | [], acc => some acc
  | i :: is, acc =>
    match per_step hyps refs acc i with
    | none => none
    | some acc2 => per_loop hyps refs is acc2

/-- `batch_per(hyps, refs)` from `src/utils.py`: accumulate the normalized
edit distances over `range(len(hyps))` and divide by `len(hyps)` (an empty
`hyps` raises `ZeroDivisionError`, hence `none`). -/
def batch_per (hyps refs : List (List ℤ)) : Option ℚ :=
  match per_loop hyps refs (List.range hyps.length) 0 with
  | none => none
  | some total =>
    if hyps.length = 0 then none else some (total / (hyps.length : ℚ))

/-- Spec-side formula (from the spec's words): the normalized edit distance
of the `i`-th hypothesis/reference pair, after stripping padding zeros. -/
def per_quotient (hyps refs : List (List ℤ)) (i : ℕ) : ℚ :=
  (edit_distance (strip0 (refs.getD i [])) (strip0 (hyps.getD i [])) : ℚ) /
    ((strip0 (refs.getD i [])).length : ℚ)

/-- Spec-side formula (from the spec's words): the mean over the batch of the
per-pair normalized edit distances. -/
def batch_per_mean (hyps refs : List (List ℤ)) : ℚ :=
  ((List.range hyps.length).map (per_quotient hyps refs)).sum /
    (hyps.length : ℚ)

theorem getD_of_getElem? {α : Type} {l : List α} {n : ℕ} {a : α} (d : α)
    (h : l[n]? = some a) : l.getD n d = a := by
  simp [List.getD_eq_getElem?_getD, h]

theorem edit_distance_self (l : List ℤ) : edit_distance l l = 0 := by
  induction l with
  | nil => simp [edit_distance, levenshtein_nil_nil]
  | cons x xs ih =>
    have h := ih
    simp only [edit_distance] at h ⊢
    rw [levenshtein_cons_cons]
    simp [h, Levenshtein.defaultCost_substitute, min_zero]

theorem per_loop_eq (hyps refs : List (List ℤ)) (is : List ℕ) (acc : ℚ)
    (h : ∀ i ∈ is, (∃ hh, hyps[i]? = some hh) ∧
      ∃ r, refs[i]? = some r ∧ strip0 r ≠ []) :
    per_loop hyps refs is acc =
      some (acc + (is.map (per_quotient hyps refs)).sum) := by
  induction is generalizing acc with
  | nil => simp [per_loop]
  | cons i is ih =>
    obtain ⟨⟨hh, hhyp⟩, r, href, hr⟩ := h i (by simp)
    have hstep : per_step hyps refs acc i =
        some (acc + per_quotient hyps refs i) := by
      simp only [per_step, hhyp, href]
      rw [if_neg (by simpa using hr)]
      simp only [per_quotient, getD_of_getElem? _ href, getD_of_getElem? _ hhyp]
    simp only [per_loop, hstep]
    rw [ih _ (fun j hj => h j (by simp [hj]))]
    simp only [List.map_cons, List.sum_cons]
    congr 1
    ring

theorem per_loop_none (hyps refs : List (List ℤ)) (is : List ℕ)
    (h : ∃ i ∈ is, ∀ a : ℚ, per_step hyps refs a i = none) :
    ∀ acc, per_loop hyps refs is acc = none := by
  induction is with
  | nil => simp at h
  | cons i is ih =>
    intro acc
    obtain ⟨j, hj, hnone⟩ := h
    rcases List.mem_cons.mp hj with rfl | hj'
    · simp only [per_loop]
      rw [hnone acc]
    · cases hstep : per_step hyps refs acc i with
      | none => simp only [per_loop]; rw [hstep]
      | some acc2 =>
        simp only [per_loop]
        rw [hstep]
        exact ih ⟨j, hj', hnone⟩ acc2

/-- C1: for equal-length batches whose references all keep at least one
non-zero entry, `batch_per` strips the padding zeros from each
hypothesis/reference pair, computes the Levenshtein edit distance between the
stripped sequences, normalizes by the stripped reference's length, and
returns the mean of these quotients; when every stripped hypothesis equals
its stripped reference the result is 0, and for the single pair reference
`[1,2,3]` / hypothesis `[1,3]` the result is `1/3`. -/
theorem batch_per_correct (hyps refs : List (List ℤ))
    (hlen : hyps.length = refs.length) (hne : hyps ≠ [])
    (hstrip : ∀ r ∈ refs, strip0 r ≠ []) :
    batch_per hyps refs = some (batch_per_mean hyps refs)
    ∧ ((∀ i, strip0 (hyps.getD i []) = strip0 (refs.getD i [])) →
        batch_per hyps refs = some 0)
    ∧ batch_per [[1, 3]] [[1, 2, 3]] = some (1 / 3) := by
  have hmem : ∀ i ∈ List.range hyps.length,
      (∃ hh, hyps[i]? = some hh) ∧ ∃ r, refs[i]? = some r ∧ strip0 r ≠ [] := by
    intro i hi
    rw [List.mem_range] at hi
    have hi' : i < refs.length := hlen ▸ hi
    exact ⟨⟨hyps[i], List.getElem?_eq_getElem hi⟩,
      refs[i], List.getElem?_eq_getElem hi', hstrip _ (List.getElem_mem hi')⟩
  have hmain : batch_per hyps refs = some (batch_per_mean hyps refs) := by
    simp only [batch_per, per_loop_eq hyps refs _ 0 hmem]
    rw [if_neg (by simpa using hne)]
    simp [batch_per_mean]
  refine ⟨hmain, ?_, ?_⟩
  · intro hid
    have hzero : batch_per_mean hyps refs = 0 := by
      have hsum :
          ((List.range hyps.length).map (per_quotient hyps refs)).sum = 0 := by
        apply List.sum_eq_zero
        intro x hx
        obtain ⟨i, _, rfl⟩ := List.mem_map.mp hx
        unfold per_quotient
        rw [hid i, edit_distance_self]
        simp
      simp [batch_per_mean, hsum]
    rw [hmain, hzero]
  · have h1 : edit_distance [1, 2, 3] [1, 3] = 1 := by decide
    simp [batch_per, per_loop, per_step, strip0, List.range_succ, h1]

theorem batch_per_correct_witness :
    batch_per [[1, 3]] [[1, 2, 3]] = some (1 / 3) :=
  (batch_per_correct [[1, 3]] [[1, 2, 3]] rfl (by simp) (by decide)).2.2

/-- C8: `batch_per` hits the `ZeroDivisionError` branch (modelled as `none`)
whenever some reference sequence of the batch strips to the empty sequence,
i.e. consists of padding zeros only. -/
theorem batch_per_div_by_zero (hyps refs : List (List ℤ))
    (hlen : hyps.length = refs.length)
    (hbad : ∃ r ∈ refs, strip0 r = []) :
    batch_per hyps refs = none := by
  obtain ⟨r, hr, hstripped⟩ := hbad
  obtain ⟨i, hi, rfl⟩ := List.mem_iff_getElem.mp hr
  have hstep : ∀ a : ℚ, per_step hyps refs a i = none := by
    intro a
    have href : refs[i]? = some refs[i] := List.getElem?_eq_getElem hi
    have hhyp : hyps[i]? = some hyps[i] :=
      List.getElem?_eq_getElem (by rw [hlen]; exact hi)
    simp only [per_step, href, hhyp]
    rw [if_pos (by rw [hstripped]; rfl)]
  have hloop := per_loop_none hyps refs (List.range hyps.length)
    ⟨i, List.mem_range.mpr (by rw [hlen]; exact hi), hstep⟩
  simp [batch_per, hloop 0]

theorem batch_per_div_by_zero_witness : batch_per [[1]] [[0]] = none :=
  batch_per_div_by_zero [[1]] [[0]] rfl ⟨[0], by simp, by decide⟩

/-- The inner loop `for seq_i, val in enumerate(target)` of
`target_list_to_sparse_tensor`: the index pairs `[t_i, seq_i]` contributed by
one target sequence, with `seq_i` counting up from `j`. -/
def row_indices (t_i : ℕ) : ℕ → List ℤ → List (ℕ × ℕ)
  | _, [] => []
  | j, _ :: rest => (t_i, j) :: row_indices t_i (j + 1) rest

/-- The outer loop `for t_i, target in enumerate(target_list)`, with `t_i`
counting up from `k`: all index pairs in construction order. -/
def sparse_indices : ℕ → List (List ℤ) → List (ℕ × ℕ)
  | _, [] => []
  | k, target :: rest => row_indices k 0 target ++ sparse_indices (k + 1) rest

/-- `target_list_to_sparse_tensor(target_list)` from `src/utils.py`: the
index pairs in construction order, the parallel value list (`vals` collects
each `val`, so it is the concatenation of the sequences), and the shape
`[len(target_list), np.asarray(indices).max(0)[1]+1]`, where the second
entry is the maximum column index plus one.  When `indices` is empty,
`np.asarray(indices).max(0)` raises (reduction over a zero-size array),
hence `none`. -/
def target_list_to_sparse_tensor (target_list : List (List ℤ)) :
    Option (List (ℕ × ℕ) × List ℤ × (ℕ × ℕ)) :=
  if sparse_indices 0 target_list = [] then none
  else some (sparse_indices 0 target_list, target_list.flatten,
    (target_list.length,
      ((sparse_indices 0 target_list).map Prod.snd).foldl max 0 + 1))

/-- Spec-side: the maximum sequence length over the list. -/
def max_seq_len (target_list : List (List ℤ)) : ℕ :=
  (target_list.map List.length).foldl max 0

/-- Spec-side scatter decoding: the value at cell `pos` of the array obtained
by scattering `vals` at `indices` into a zero-filled array. -/
def sparse_get (indices : List (ℕ × ℕ)) (vals : List ℤ) (pos : ℕ × ℕ) : ℤ :=
  match (indices.zip vals).find? (fun p => p.1 == pos) with
  | some p => p.2
  | none => 0

/-- Spec-side strict ordering on index pairs: increasing sequence index,
then increasing position. -/
def idx_lt (p q : ℕ × ℕ) : Prop :=
  p.1 < q.1 ∨ (p.1 = q.1 ∧ p.2 < q.2)

theorem self_le_foldl_max (l : List ℕ) (a : ℕ) : a ≤ l.foldl max a := by
  induction l generalizing a with
  | nil => exact le_refl a
  | cons b l ih => exact le_trans (le_max_left a b) (ih (max a b))

theorem le_foldl_max (l : List ℕ) (a : ℕ) : ∀ x ∈ l, x ≤ l.foldl max a := by
  induction l generalizing a with
  | nil => simp
  | cons b l ih =>
    intro x hx
    rcases List.mem_cons.mp hx with rfl | hx'
    · exact le_trans (le_max_right a x) (self_le_foldl_max l (max a x))
    · exact ih (max a b) x hx'

theorem foldl_max_le (l : List ℕ) (a n : ℕ) (ha : a ≤ n)
    (h : ∀ x ∈ l, x ≤ n) : l.foldl max a ≤ n := by
  induction l generalizing a with
  | nil => exact ha
  | cons b l ih =>
    exact ih (max a b) (max_le ha (h b (by simp))) fun x hx => h x (by simp [hx])

theorem foldl_max_mem (l : List ℕ) (a : ℕ) :
    l.foldl max a = a ∨ l.foldl max a ∈ l := by
  induction l generalizing a with
  | nil => exact Or.inl rfl
  | cons b l ih =>
    rcases ih (max a b) with h | h
    · rcases max_choice a b with hab | hab
      · exact Or.inl (by rw [List.foldl_cons, h, hab])
      · exact Or.inr (by rw [List.foldl_cons, h, hab]; exact List.mem_cons_self b l)
    · exact Or.inr (List.mem_cons_of_mem b h)

theorem row_indices_length (t_i j : ℕ) (t : List ℤ) :
    (row_indices t_i j t).length = t.length := by
  induction t generalizing j with
  | nil => rfl
  | cons x xs ih => simp [row_indices, ih (j + 1)]

theorem row_indices_eq_nil (t_i j : ℕ) (t : List ℤ) :
    row_indices t_i j t = [] ↔ t = [] := by
  cases t <;> simp [row_indices]

theorem mem_row_indices (t_i j₀ : ℕ) (t : List ℤ) (i j : ℕ) :
    (i, j) ∈ row_indices t_i j₀ t ↔
      i = t_i ∧ j₀ ≤ j ∧ j - j₀ < t.length := by
  induction t generalizing j₀ with
  | nil => simp [row_indices]
  | cons x xs ih =>
    simp only [row_indices, List.mem_cons, ih (j₀ + 1), Prod.mk.injEq,
      List.length_cons]
    omega

theorem fst_le_of_mem_sparse (tl : List (List ℤ)) (k : ℕ) (p : ℕ × ℕ)
    (h : p ∈ sparse_indices k tl) : k ≤ p.1 := by
  induction tl generalizing k with
  | nil => simp [sparse_indices] at h
  | cons t rest ih =>
    rcases List.mem_append.mp h with h' | h'
    · obtain ⟨a, b⟩ := p
      rw [mem_row_indices] at h'
      simp [h'.1]
    · exact le_trans (Nat.le_succ k) (ih (k + 1) h')

theorem mem_sparse_indices_aux (tl : List (List ℤ)) (k m j : ℕ) :
    (k + m, j) ∈ sparse_indices k tl ↔
      m < tl.length ∧ j < (tl.getD m []).length := by
  induction tl generalizing k m with
  | nil => simp [sparse_indices]
  | cons t rest ih =>
    cases m with
    | zero =>
      simp only [sparse_indices, List.mem_append, mem_row_indices]
      constructor
      · rintro (⟨-, -, h⟩ | h)
        · simpa using h
        · exact absurd (fst_le_of_mem_sparse rest (k + 1) _ h) (by simp)
      · rintro ⟨-, hj⟩
        exact Or.inl ⟨by omega, by omega, by simpa using hj⟩
    | succ m =>
      have hkm : k + (m + 1) = (k + 1) + m := by omega
      simp only [sparse_indices, List.mem_append, mem_row_indices, hkm,
        ih (k + 1) m]
      constructor
      · rintro (⟨h1, -, -⟩ | h)
        · omega
        · simpa [List.getD_cons_succ] using h
      · rintro ⟨hm, hj⟩
        exact Or.inr ⟨by simpa using hm, by simpa [List.getD_cons_succ] using hj⟩

theorem mem_sparse_indices (tl : List (List ℤ)) (i j : ℕ) :
    (i, j) ∈ sparse_indices 0 tl ↔
      i < tl.length ∧ j < (tl.getD i []).length := by
  simpa using mem_sparse_indices_aux tl 0 i j

theorem sparse_indices_eq_nil_iff (tl : List (List ℤ)) (k : ℕ) :
    sparse_indices k tl = [] ↔ ∀ t ∈ tl, t = [] := by
  induction tl generalizing k with
  | nil => simp [sparse_indices]
  | cons t rest ih =>
    simp [sparse_indices, List.append_eq_nil, row_indices_eq_nil, ih (k + 1)]

theorem sparse_indices_length (tl : List (List ℤ)) (k : ℕ) :
    (sparse_indices k tl).length = (tl.map List.length).sum := by
  induction tl generalizing k with
  | nil => rfl
  | cons t rest ih => simp [sparse_indices, row_indices_length, ih (k + 1)]

theorem pairwise_row_indices (t_i j₀ : ℕ) (t : List ℤ) :
    List.Pairwise idx_lt (row_indices t_i j₀ t) := by
  induction t generalizing j₀ with
  | nil => simp [row_indices]
  | cons x xs ih =>
    simp only [row_indices, List.pairwise_cons]
    refine ⟨?_, ih (j₀ + 1)⟩
    rintro ⟨a, b⟩ hp
    rw [mem_row_indices] at hp
    unfold idx_lt
    simp only
    omega

theorem pairwise_sparse_indices (tl : List (List ℤ)) (k : ℕ) :
    List.Pairwise idx_lt (sparse_indices k tl) := by
  induction tl generalizing k with
  | nil => simp [sparse_indices]
  | cons t rest ih =>
    simp only [sparse_indices]
    rw [List.pairwise_append]
    refine ⟨pairwise_row_indices k 0 t, ih (k + 1), ?_⟩
    rintro ⟨a1, a2⟩ ha ⟨b1, b2⟩ hb
    rw [mem_row_indices] at ha
    have hb1 := fst_le_of_mem_sparse rest (k + 1) _ hb
    unfold idx_lt
    simp only at hb1 ⊢
    omega

theorem row_zip_find (t_i j₀ : ℕ) (t : List ℤ) (i j : ℕ) :
    ((row_indices t_i j₀ t).zip t).find? (fun p => p.1 == (i, j)) =
      if i = t_i ∧ j₀ ≤ j ∧ j - j₀ < t.length
      then some ((i, j), t.getD (j - j₀) 0) else none := by
  induction t generalizing j₀ with
  | nil =>
    rw [if_neg (by simp only [List.length_nil]; omega)]
    rfl
  | cons x xs ih =>
    simp only [row_indices, List.zip_cons_cons]
    by_cases h : (t_i, j₀) = (i, j)
    · rw [List.find?_cons_of_pos _ (by simp [← h])]
      have hij : i = t_i ∧ j = j₀ := by
        constructor <;> [exact congrArg Prod.fst h.symm; exact congrArg Prod.snd h.symm]
      rw [if_pos ⟨hij.1, by omega, by simp only [List.length_cons]; omega⟩]
      have hj0 : j - j₀ = 0 := by omega
      rw [hj0, List.getD_cons_zero, ← h]
    · rw [List.find?_cons_of_neg _ (by simpa using h)]
      rw [ih (j₀ + 1)]
      have hne : ¬(t_i = i ∧ j₀ = j) := by
        intro hc
        exact h (by rw [hc.1, hc.2])
      by_cases hcond : i = t_i ∧ j₀ + 1 ≤ j ∧ j - (j₀ + 1) < xs.length
      · rw [if_pos hcond,
          if_pos ⟨hcond.1, by omega, by simp only [List.length_cons]; omega⟩]
        have hstep : j - j₀ = (j - (j₀ + 1)) + 1 := by omega
        rw [hstep, List.getD_cons_succ]
      · rw [if_neg hcond, if_neg ?_]
        rintro ⟨hc1, hc2, hc3⟩
        apply hcond
        refine ⟨hc1, ?_, ?_⟩ <;> (simp only [List.length_cons] at hc3; omega)

theorem sparse_find_aux (tl : List (List ℤ)) (k i j : ℕ) :
    ((sparse_indices k tl).zip tl.flatten).find? (fun p => p.1 == (i, j)) =
      if k ≤ i ∧ i - k < tl.length ∧ j < (tl.getD (i - k) []).length
      then some ((i, j), (tl.getD (i - k) []).getD j 0) else none := by
  induction tl generalizing k with
  | nil =>
    rw [if_neg (by simp only [List.length_nil]; omega)]
    rfl
  | cons t rest ih =>
    simp only [sparse_indices, List.flatten_cons]
    rw [List.zip_append (by rw [row_indices_length]), List.find?_append,
      row_zip_find, ih (k + 1)]
    by_cases h1 : i = k ∧ 0 ≤ j ∧ j - 0 < t.length
    · rw [if_pos h1]
      have hik : i - k = 0 := by omega
      rw [Option.or_some,
        if_pos ⟨by omega, by simp only [List.length_cons]; omega,
          by rw [hik, List.getD_cons_zero]; omega⟩]
      rw [hik, List.getD_cons_zero]
      have : j - 0 = j := by omega
      rw [this] at h1 ⊢
    · rw [if_neg h1, Option.none_or]
      by_cases h2 : k + 1 ≤ i
      · have hstep : i - k = (i - (k + 1)) + 1 := by omega
        rw [hstep, List.getD_cons_succ]
        refine if_congr ?_ rfl rfl
        simp only [List.length_cons]
        omega
      · rw [if_neg (by omega), if_neg ?_]
        rintro ⟨hki, -, hj⟩
        have hik : i = k := by omega
        have hik0 : i - k = 0 := by omega
        rw [hik0, List.getD_cons_zero] at hj
        exact h1 ⟨hik, by omega, by omega⟩

theorem getD_eq_getElem {α : Type} (l : List α) (d : α) {n : ℕ}
    (h : n < l.length) : l.getD n d = l[n] := by
  rw [List.getD_eq_getElem?_getD, List.getElem?_eq_getElem h]
  rfl

theorem snd_max_eq (tl : List (List ℤ)) (h0 : tl ≠ [])
    (h1 : ∀ t ∈ tl, t ≠ []) :
    ((sparse_indices 0 tl).map Prod.snd).foldl max 0 + 1 = max_seq_len tl := by
  have hM1 : 1 ≤ max_seq_len tl := by
    obtain ⟨t, rest, rfl⟩ := List.exists_cons_of_ne_nil h0
    have ht : t ≠ [] := h1 t (by simp)
    have hle := le_foldl_max ((t :: rest).map List.length) 0 t.length (by simp)
    have h1t : 1 ≤ t.length := by
      cases t
      · exact absurd rfl ht
      · simp
    unfold max_seq_len
    omega
  have hub : ((sparse_indices 0 tl).map Prod.snd).foldl max 0 ≤
      max_seq_len tl - 1 := by
    apply foldl_max_le
    · omega
    · intro x hx
      obtain ⟨⟨a, b⟩, hmem, rfl⟩ := List.mem_map.mp hx
      rw [mem_sparse_indices] at hmem
      obtain ⟨ha, hb⟩ := hmem
      have hrow : tl.getD a [] ∈ tl := by
        rw [getD_eq_getElem _ _ ha]
        exact List.getElem_mem ha
      have hlen_le : (tl.getD a []).length ≤ max_seq_len tl :=
        le_foldl_max (tl.map List.length) 0 _
          (List.mem_map.mpr ⟨tl.getD a [], hrow, rfl⟩)
      simp only
      omega
  have hlb : max_seq_len tl ≤
      ((sparse_indices 0 tl).map Prod.snd).foldl max 0 + 1 := by
    rcases foldl_max_mem (tl.map List.length) 0 with h | h
    · unfold max_seq_len at hM1 ⊢
      omega
    · obtain ⟨t, ht_mem, hlen⟩ := List.mem_map.mp h
      obtain ⟨a, ha, rfl⟩ := List.mem_iff_getElem.mp ht_mem
      have htne : tl[a] ≠ [] := h1 _ (List.getElem_mem ha)
      have h1t : 1 ≤ tl[a].length := by
        cases hx : tl[a]
        · exact absurd hx htne
        · simp [hx]
      have hmem2 : (a, tl[a].length - 1) ∈ sparse_indices 0 tl := by
        rw [mem_sparse_indices]
        exact ⟨ha, by rw [getD_eq_getElem _ _ ha]; omega⟩
      have hle := le_foldl_max ((sparse_indices 0 tl).map Prod.snd) 0
        (tl[a].length - 1) (List.mem_map.mpr ⟨(a, tl[a].length - 1), hmem2, rfl⟩)
      unfold max_seq_len
      omega
  omega

theorem sparse_get_eq (tl : List (List ℤ)) (i j : ℕ) (hi : i < tl.length) :
    sparse_get (sparse_indices 0 tl) tl.flatten (i, j) =
      if j < (tl.getD i []).length then (tl.getD i []).getD j 0 else 0 := by
  unfold sparse_get
  rw [sparse_find_aux tl 0 i j]
  simp only [Nat.sub_zero]
  by_cases hj : j < (tl.getD i []).length
  · rw [if_pos ⟨Nat.zero_le i, hi, hj⟩, if_pos hj]
  · rw [if_neg (by tauto), if_neg hj]

/-- C7 counterexample: on input `[[5], []]`, which has an empty sequence,
`target_list_to_sparse_tensor` does not raise (`indices` is non-empty, so
`np.asarray(indices).max(0)` succeeds); it returns a triple. -/
theorem sparse_tensor_empty_seq_cex :
    target_list_to_sparse_tensor [[5], []] ≠ none := by decide

/-- C7 (amended): `target_list_to_sparse_tensor` fails (the reduction
`np.asarray(indices).max(0)` raises on a zero-size array) exactly when every
input sequence is empty — equivalently, when there is no label occurrence at
all; a single non-empty sequence suffices for it to return a triple. -/
theorem sparse_tensor_fails_iff (target_list : List (List ℤ)) :
    target_list_to_sparse_tensor target_list = none ↔
      ∀ t ∈ target_list, t = [] := by
  unfold target_list_to_sparse_tensor
  by_cases h : sparse_indices 0 target_list = []
  · rw [if_pos h]
    simpa using (sparse_indices_eq_nil_iff target_list 0).mp h
  · rw [if_neg h]
    simp only [reduceCtorEq, false_iff]
    intro hall
    exact h ((sparse_indices_eq_nil_iff target_list 0).mpr hall)

theorem sparse_tensor_fails_iff_witness :
    target_list_to_sparse_tensor [([] : List ℤ), []] = none :=
  (sparse_tensor_fails_iff [[], []]).mpr (by decide)

/-- C2: for a non-empty list of non-empty label sequences,
`target_list_to_sparse_tensor` returns the triple of (1) the index pairs
`(sequence, position)`, one per label occurrence, strictly ordered by
sequence index and then position and containing exactly the in-range cells;
(2) the parallel value list (the concatenation of the sequences), of the
same total length; and (3) the shape `(N, max sequence length)`; scattering
the values at the indices into a zero-filled array reproduces the
zero-padded input sequences. -/
theorem sparse_tensor_correct (tl : List (List ℤ)) (h0 : tl ≠ [])
    (h1 : ∀ t ∈ tl, t ≠ []) :
    target_list_to_sparse_tensor tl =
      some (sparse_indices 0 tl, tl.flatten, (tl.length, max_seq_len tl))
    ∧ List.Pairwise idx_lt (sparse_indices 0 tl)
    ∧ (∀ i j : ℕ, (i, j) ∈ sparse_indices 0 tl ↔
        i < tl.length ∧ j < (tl.getD i []).length)
    ∧ (sparse_indices 0 tl).length = (tl.map List.length).sum
    ∧ tl.flatten.length = (tl.map List.length).sum
    ∧ (∀ i < tl.length, ∀ j : ℕ,
        sparse_get (sparse_indices 0 tl) tl.flatten (i, j) =
          if j < (tl.getD i []).length then (tl.getD i []).getD j 0 else 0) := by
  have hne : sparse_indices 0 tl ≠ [] := by
    rw [Ne, sparse_indices_eq_nil_iff]
    intro hall
    obtain ⟨t, rest, rfl⟩ := List.exists_cons_of_ne_nil h0
    exact h1 t (by simp) (hall t (by simp))
  refine ⟨?_, pairwise_sparse_indices tl 0,
    fun i j => mem_sparse_indices tl i j,
    sparse_indices_length tl 0, by simp,
    fun i hi j => sparse_get_eq tl i j hi⟩
  unfold target_list_to_sparse_tensor
  rw [if_neg hne, snd_max_eq tl h0 h1]

theorem sparse_tensor_correct_witness :
    target_list_to_sparse_tensor [[1, 2], [3]] =
      some (sparse_indices 0 [[1, 2], [3]], ([[1, 2], [3]] : List (List ℤ)).flatten,
        (2, max_seq_len [[1, 2], [3]])) :=
  (sparse_tensor_correct [[1, 2], [3]] (by simp) (by decide)).1

/-! Numeric arrays of rank 1 to 4, modelled as nested lists of rationals. -/

abbrev Arr1 := List ℚ
abbrev Arr2 := List Arr1
abbrev Arr3 := List Arr2
abbrev Arr4 := List Arr3

/-- `zero_pad(matrix, to_length)` from `src/utils.py`, for an array viewed
as a list of rows: `np.zeros((to_length,) + matrix.shape[1:])` is
`to_length` copies of the zero row `z` of the matrix's trailing shape
(passed explicitly), `result[:matrix.shape[0]] = matrix` copies the rows
into the prefix, and a failure of `assert matrix.shape[0] <= to_length` is
`none`. -/
def zero_pad {α : Type} (z : α) (matrix : List α) (to_length : ℕ) :
    Option (List α) :=
  if matrix.length ≤ to_length then
    some (matrix ++ List.replicate (to_length - matrix.length) z)
  else none

/-- The zero row of `matrix.shape[1:]` for a rank-3 utterance array of shape
`(T, C, F)`, with `C` and `F` read off the first row (for the rectangular
arrays numpy accepts, every row has this shape). -/
def zrow_of (utt : Arr3) : Arr2 :=
  List.replicate (utt.headD []).length
    (List.replicate ((utt.headD []).headD []).length 0)

/-- `np.swapaxes(u, 0, 1)` (and likewise `np.transpose(x, (1, 0, 2))`): the
outer transpose of a nested list; `d` is a default never reached on the
rectangular inputs numpy accepts. -/
def swap01 {α : Type} (d : α) (u : List (List α)) : List (List α) :=
  (List.range (u.headD []).length).map
    (fun c => u.map (fun row => row.getD c d))

/-- `np.concatenate(blocks, axis=1)`: rows indexed like the first block's,
each row the concatenation of the blocks' corresponding rows.  numpy raises
on an empty block sequence; the model returns `[]` there instead, so
theorems about `collapse` carry a `C ≥ 1` hypothesis rather than relying on
this branch. -/
def concat_axis1 {α : Type} (blocks : List (List (List α))) :
    List (List α) :=
  (List.range (blocks.headD []).length).map
    (fun r => (blocks.map (fun m => m.getD r [])).flatten)

/-- `collapse(batch_x, time_major)` from `src/utils.py`: for each utterance
swap the first two axes and concatenate along the new axis 1, then stack,
and transpose the outer two axes of the batch when `time_major` is set. -/
def collapse (batch_x : Arr4) (time_major : Bool) : Arr3 :=
  let new_batch_x := batch_x.map (fun utterance =>
    concat_axis1 (swap01 [] utterance))
  if time_major then swap01 [] new_batch_x else new_batch_x

/-- The loop `for i, utt in enumerate(utterances): batch[i] =
zero_pad(utt, max_len)` of `load_batch_x`; a failing assertion inside
`zero_pad` aborts it.  The assignment's broadcast check (`ValueError` when a
padded utterance's trailing dimensions differ from the batch's, i.e. from
`utterances[0].shape[1:]`) is not modelled, so theorems about the overall
result of `load_batch_x` carry trailing-dims-agreement hypotheses rather
than concluding success from this model alone. -/
def pad_all (max_len : ℕ) : Arr4 → Option Arr4
  | [] => some []
  | utt :: rest =>
    match zero_pad (zrow_of utt) utt max_len, pad_all max_len rest with
    | some p, some ps => some (p :: ps)
    | _, _ => none

/-- `max(utter_lens)` in `load_batch_x`: the largest first-dimension size. -/
def max_len_of (utterances : Arr4) : ℕ :=
  (utterances.map List.length).foldl max 0

/-- `load_batch_x(path_batch, flatten, time_major)` from `src/utils.py`,
with the `np.load` results passed directly as the utterance arrays (each of
shape `(T, C, F)`).  `max(utter_lens)` on an empty batch raises, hence
`none`; the batch is rank 4 (`Sum.inl`), or rank 3 after `collapse` when
`flatten` is set (`Sum.inr`); the second component is `utter_lens`.  The
shape-mismatch `ValueError` of the stacking assignment (see `pad_all`) and
the zero-channel raise inside `collapse` (see `concat_axis1`) are not
modelled; theorems about the returned batch therefore assume rectangular
input of the stated shape. -/
def load_batch_x (utterances : Arr4) (flatten time_major : Bool) :
    Option ((Arr4 ⊕ Arr3) × List ℕ) :=
  match utterances with
  | [] => none
  | _ :: _ =>
    match pad_all (max_len_of utterances) utterances with
    | none => none
    | some batch =>
      if flatten then
        some (Sum.inr (collapse batch time_major), utterances.map List.length)
      else some (Sum.inl batch, utterances.map List.length)

/-- Proof-side description of the padded batch built by the loop. -/
def padded_batch (utterances : Arr4) : Arr4 :=
  utterances.map (fun utt =>
    utt ++ List.replicate (max_len_of utterances - utt.length) (zrow_of utt))

/-- C4: when the input's first-dimension length `n` is at most the target
length `L`, `zero_pad` succeeds and returns an array of first-dimension
length `L` whose first `n` rows are the input and whose remaining rows are
all the zero row; slicing back to length `n` reproduces the input, and when
`n = L` the result is the input unchanged. -/
theorem zero_pad_correct {α : Type} (z : α) (matrix : List α) (L : ℕ)
    (h : matrix.length ≤ L) :
    ∃ result, zero_pad z matrix L = some result
      ∧ result.length = L
      ∧ result.take matrix.length = matrix
      ∧ result.drop matrix.length = List.replicate (L - matrix.length) z
      ∧ (matrix.length = L → result = matrix) := by
  refine ⟨matrix ++ List.replicate (L - matrix.length) z, ?_, ?_, ?_, ?_, ?_⟩
  · unfold zero_pad
    rw [if_pos h]
  · rw [List.length_append, List.length_replicate]
    omega
  · rw [List.take_left]
  · rw [List.drop_left]
  · intro hL
    rw [hL, Nat.sub_self, List.replicate_zero, List.append_nil]

theorem zero_pad_correct_witness :
    ∃ result, zero_pad (0 : ℚ) [1, 2] 3 = some result
      ∧ result.length = 3
      ∧ result.take ([(1 : ℚ), 2].length) = [1, 2]
      ∧ result.drop ([(1 : ℚ), 2].length) = List.replicate (3 - [(1 : ℚ), 2].length) 0
      ∧ ([(1 : ℚ), 2].length = 3 → result = [1, 2]) :=
  zero_pad_correct 0 [1, 2] 3 (by simp)

theorem pad_all_eq_some (max_len : ℕ) (utts : Arr4)
    (h : ∀ utt ∈ utts, utt.length ≤ max_len) :
    pad_all max_len utts = some (utts.map (fun utt =>
      utt ++ List.replicate (max_len - utt.length) (zrow_of utt))) := by
  induction utts with
  | nil => rfl
  | cons u rest ih =>
    have hz : zero_pad (zrow_of u) u max_len =
        some (u ++ List.replicate (max_len - u.length) (zrow_of u)) := by
      unfold zero_pad
      rw [if_pos (h u (by simp))]
    simp only [pad_all, hz, ih (fun utt hu => h utt (by simp [hu])),
      List.map_cons]

theorem utt_length_le_max_len (utterances : Arr4) :
    ∀ utt ∈ utterances, utt.length ≤ max_len_of utterances := by
  intro utt hu
  exact le_foldl_max _ 0 _ (List.mem_map.mpr ⟨utt, hu, rfl⟩)

theorem load_batch_x_eq (utterances : Arr4) (time_major : Bool)
    (h0 : utterances ≠ []) :
    load_batch_x utterances false time_major =
      some (Sum.inl (padded_batch utterances), utterances.map List.length)
    ∧ load_batch_x utterances true time_major =
      some (Sum.inr (collapse (padded_batch utterances) time_major),
        utterances.map List.length) := by
  have hpad : pad_all (max_len_of utterances) utterances =
      some (padded_batch utterances) :=
    pad_all_eq_some _ _ (utt_length_le_max_len utterances)
  cases utterances with
  | nil => exact absurd rfl h0
  | cons u0 rest =>
    constructor <;> simp [load_batch_x, hpad]

/-- C10: for every non-empty batch, `zero_pad`'s assertion
`matrix.shape[0] <= to_length` holds on every call made by the
`batch[i] = zero_pad(utt, max_len)` loop of `load_batch_x` — the target
length passed is the maximum of the first-dimension sizes — so no call
reaches the assertion-failure branch: every `zero_pad` call the loop
performs takes the non-assert branch and returns its padded result.  (Only
the `zero_pad` calls are at issue: the subsequent stacking assignment and
`collapse` can still raise for mismatched shapes, which is outside this
claim.) -/
theorem zero_pad_assert_unreachable (utterances : Arr4)
    (h0 : utterances ≠ []) :
    ∀ utt ∈ utterances, utt.length ≤ max_len_of utterances
      ∧ zero_pad (zrow_of utt) utt (max_len_of utterances)
          = some (utt ++ List.replicate (max_len_of utterances - utt.length)
              (zrow_of utt)) := by
  intro utt hu
  refine ⟨utt_length_le_max_len utterances utt hu, ?_⟩
  unfold zero_pad
  rw [if_pos (utt_length_le_max_len utterances utt hu)]

theorem zero_pad_assert_unreachable_witness :
    ([[[1]]] : Arr3).length ≤ max_len_of [[[[1]]], [[[2]], [[3]]]]
    ∧ zero_pad (zrow_of [[[1]]]) [[[1]]] (max_len_of [[[[1]]], [[[2]], [[3]]]])
        = some ([[[1]]] ++ List.replicate
            (max_len_of [[[[1]]], [[[2]], [[3]]]] - ([[[1]]] : Arr3).length)
            (zrow_of [[[1]]])) :=
  zero_pad_assert_unreachable [[[[1]]], [[[2]], [[3]]]] (by simp) [[[1]]]
    (by simp)

/-- C3: for every non-empty batch of arrays agreeing in trailing dimensions,
the lengths array returned by `load_batch_x` has one entry per input array,
in input order, the `i`-th entry being the `i`-th array's first-dimension
size. -/
theorem load_batch_x_lens (utterances : Arr4) (flatten time_major : Bool)
    (c f : ℕ) (h0 : utterances ≠ [])
    (hrect : ∀ u ∈ utterances, ∀ row ∈ u,
      row.length = c ∧ ∀ x ∈ row, x.length = f) :
    ∃ b, load_batch_x utterances flatten time_major
        = some (b, utterances.map List.length)
      ∧ (utterances.map List.length).length = utterances.length
      ∧ ∀ i < utterances.length,
          (utterances.map List.length).getD i 0
            = (utterances.getD i []).length := by
  have hgetD : ∀ i < utterances.length,
      (utterances.map List.length).getD i 0 = (utterances.getD i []).length := by
    intro i hi
    rw [getD_eq_getElem _ _ (by simpa using hi), getD_eq_getElem _ _ hi,
      List.getElem_map]
  cases flatten
  · exact ⟨Sum.inl (padded_batch utterances),
      (load_batch_x_eq utterances time_major h0).1, by simp, hgetD⟩
  · exact ⟨Sum.inr (collapse (padded_batch utterances) time_major),
      (load_batch_x_eq utterances time_major h0).2, by simp, hgetD⟩

theorem load_batch_x_lens_witness :
    ∃ b, load_batch_x [[[[1]]], [[[2]], [[3]]]] false false
        = some (b, ([[[[1]]], [[[2]], [[3]]]] : Arr4).map List.length)
      ∧ (([[[[1]]], [[[2]], [[3]]]] : Arr4).map List.length).length
          = ([[[[1]]], [[[2]], [[3]]]] : Arr4).length
      ∧ ∀ i < ([[[[1]]], [[[2]], [[3]]]] : Arr4).length,
          (([[[[1]]], [[[2]], [[3]]]] : Arr4).map List.length).getD i 0
            = (([[[[1]]], [[[2]], [[3]]]] : Arr4).getD i []).length :=
  load_batch_x_lens [[[[1]]], [[[2]], [[3]]]] false false 1 1 (by simp)
    (by decide)

theorem swap01_length {α : Type} (d : α) (u : List (List α)) :
    (swap01 d u).length = (u.headD []).length := by
  simp [swap01]

theorem swap01_row_length {α : Type} (d : α) (u : List (List α)) :
    ∀ row ∈ swap01 d u, row.length = u.length := by
  intro row hrow
  obtain ⟨c, -, rfl⟩ := List.mem_map.mp hrow
  simp

theorem concat_axis1_length {α : Type} (blocks : List (List (List α))) :
    (concat_axis1 blocks).length = (blocks.headD []).length := by
  simp [concat_axis1]

theorem headD_map_range {α : Type} (g : ℕ → α) (n : ℕ) (hn : 0 < n)
    (d : α) : ((List.range n).map g).headD d = g 0 := by
  obtain ⟨m, rfl⟩ : ∃ m, n = m + 1 := ⟨n - 1, by omega⟩
  rw [List.range_succ_eq_map]
  simp

theorem collapse_elem_length (p : Arr3) (hc : 0 < (p.headD []).length) :
    (concat_axis1 (swap01 [] p)).length = p.length := by
  rw [concat_axis1_length]
  unfold swap01
  rw [headD_map_range _ _ hc]
  simp

theorem map_getD_range {α : Type} (l : List α) (d : α) :
    (List.range l.length).map (fun i => l.getD i d) = l := by
  induction l with
  | nil => rfl
  | cons x xs ih =>
    rw [List.length_cons, List.range_succ_eq_map, List.map_cons, List.map_map]
    simp only [Function.comp_def, List.getD_cons_succ, List.getD_cons_zero]
    rw [ih]

theorem collapse_elem_eq (u : Arr3) (c : ℕ) (hc : 0 < c)
    (hrow : ∀ row ∈ u, row.length = c) :
    concat_axis1 (swap01 [] u) = u.map List.flatten := by
  cases u with
  | nil => rfl
  | cons r0 ur =>
    have hc0 : ((r0 :: ur).headD []).length = c := by
      simpa using hrow r0 (by simp)
    apply List.ext_getElem
    · rw [collapse_elem_length _ (by rw [hc0]; exact hc), List.length_map]
    · intro t ht1 ht2
      rw [List.length_map] at ht2
      unfold concat_axis1 swap01
      rw [List.getElem_map, List.getElem_range, List.map_map, List.getElem_map]
      simp only [Function.comp_def]
      rw [hc0]
      have hinner : ∀ ci : ℕ,
          (((r0 :: ur).map (fun row => row.getD ci [])).getD t [])
            = (r0 :: ur)[t].getD ci [] := by
        intro ci
        rw [getD_eq_getElem _ _ (by simpa using ht2), List.getElem_map]
      rw [List.map_congr_left (fun ci _ => hinner ci)]
      have hlen : (r0 :: ur)[t].length = c :=
        hrow _ (List.getElem_mem ht2)
      rw [← hlen, map_getD_range]

/-- C5 counterexample: for the batch of shape `(N, C, T, F) = (1, 2, 3, 1)`
containing `[[[1],[2],[3]], [[4],[5],[6]]]`, the claimed output shape
`(N, T, C*F) = (1, 3, 2)` would make the collapsed element have 3 rows; the
code produces an element with 2 rows (shape `(N, C, T*F) = (1, 2, 3)`). -/
theorem collapse_shape_cex :
    ¬ ((collapse [[[[(1 : ℚ)], [2], [3]], [[4], [5], [6]]]] false).map
        List.length = [3]) := by
  decide

/-- C5 (amended): for every rectangular batch of shape `(N, T, C, F)` with
`C ≥ 1`, `collapse` with `time_major` false returns an array of shape
`(N, T, C*F)` whose element values are, for each batch element and each time
step, the concatenation of the `C` channel slices along the last axis (the
row-major flattening of the time step's `C × F` matrix). -/
theorem collapse_correct (batch_x : Arr4) (t c f : ℕ) (hc : 0 < c)
    (hshape : ∀ u ∈ batch_x, u.length = t ∧ ∀ row ∈ u,
      row.length = c ∧ ∀ x ∈ row, x.length = f) :
    collapse batch_x false = batch_x.map (fun u => u.map List.flatten)
    ∧ (collapse batch_x false).length = batch_x.length
    ∧ ∀ v ∈ collapse batch_x false,
        v.length = t ∧ ∀ row ∈ v, row.length = c * f := by
  have hval : collapse batch_x false
      = batch_x.map (fun u => u.map List.flatten) := by
    unfold collapse
    simp only [Bool.false_eq_true, if_false]
    exact List.map_congr_left (fun u hu =>
      collapse_elem_eq u c hc (fun row hr => ((hshape u hu).2 row hr).1))
  refine ⟨hval, by rw [hval, List.length_map], ?_⟩
  intro v hv
  rw [hval] at hv
  obtain ⟨u, hu, rfl⟩ := List.mem_map.mp hv
  refine ⟨by rw [List.length_map]; exact (hshape u hu).1, ?_⟩
  intro row hrow
  obtain ⟨r, hr, rfl⟩ := List.mem_map.mp hrow
  rw [List.length_flatten]
  have hrep : r.map List.length = List.replicate c f := by
    rw [List.eq_replicate_iff]
    refine ⟨by rw [List.length_map]; exact ((hshape u hu).2 r hr).1, ?_⟩
    intro b hb
    obtain ⟨x, hx, rfl⟩ := List.mem_map.mp hb
    exact ((hshape u hu).2 r hr).2 x hx
  rw [hrep, List.sum_replicate, smul_eq_mul]

theorem collapse_correct_witness :
    collapse [[[[(1 : ℚ)], [2]], [[3], [4]], [[5], [6]]]] false
      = ([[[[(1 : ℚ)], [2]], [[3], [4]], [[5], [6]]]] : Arr4).map
          (fun u => u.map List.flatten)
    ∧ (collapse [[[[(1 : ℚ)], [2]], [[3], [4]], [[5], [6]]]] false).length
      = ([[[[(1 : ℚ)], [2]], [[3], [4]], [[5], [6]]]] : Arr4).length
    ∧ ∀ v ∈ collapse [[[[(1 : ℚ)], [2]], [[3], [4]], [[5], [6]]]] false,
        v.length = 3 ∧ ∀ row ∈ v, row.length = 2 * 1 :=
  collapse_correct [[[[(1 : ℚ)], [2]], [[3], [4]], [[5], [6]]]] 3 2 1
    (by omega) (by decide)

theorem collapse_true_eq (batch_x : Arr4) :
    collapse batch_x true
      = swap01 [] (batch_x.map (fun u => concat_axis1 (swap01 [] u))) := rfl

theorem padded_batch_props (utterances : Arr4) (c f : ℕ)
    (hT : ∀ u ∈ utterances, u ≠ [])
    (hrect : ∀ u ∈ utterances, ∀ row ∈ u,
      row.length = c ∧ ∀ x ∈ row, x.length = f) :
    ∀ p ∈ padded_batch utterances,
      p.length = max_len_of utterances ∧ (p.headD []).length = c := by
  intro p hp
  obtain ⟨utt, hu, rfl⟩ := List.mem_map.mp hp
  constructor
  · rw [List.length_append, List.length_replicate]
    have := utt_length_le_max_len utterances utt hu
    omega
  · cases utt with
    | nil => exact absurd rfl (hT [] hu)
    | cons r rest =>
      simp only [List.cons_append, List.headD_cons]
      exact (hrect _ hu r (by simp)).1

/-- C6 counterexample: for the batch `[[[[1]],[[2]],[[3]]], [[[4]]]]`
(two utterances, maximum time length 3) with `flatten` false and
`time_major` true, the claim would make the batch's first dimension 3; the
code ignores `time_major` when `flatten` is false and returns a batch-major
array with first dimension 2. -/
theorem load_batch_x_time_major_cex :
    ¬ ((load_batch_x [[[[(1 : ℚ)]], [[2]], [[3]]], [[[4]]]] false true).map
        (fun r => Sum.elim List.length List.length r.1) = some 3) := by
  decide

/-- C6 (amended): for every non-empty rectangular batch (non-empty
utterances, `C ≥ 1` channels), when both `flatten` and `time_major` are
requested the returned batch has the time axis first (first dimension the
maximum time length, second dimension the batch size); when `flatten` is
false the `time_major` flag has no effect and the batch stays batch-major
(first dimension the batch size). -/
theorem load_batch_x_time_major (utterances : Arr4) (c f : ℕ) (hc : 0 < c)
    (h0 : utterances ≠ []) (hT : ∀ u ∈ utterances, u ≠ [])
    (hrect : ∀ u ∈ utterances, ∀ row ∈ u,
      row.length = c ∧ ∀ x ∈ row, x.length = f) :
    (∃ b, load_batch_x utterances true true
        = some (Sum.inr b, utterances.map List.length)
      ∧ b.length = max_len_of utterances
      ∧ ∀ row ∈ b, row.length = utterances.length)
    ∧ (∀ tm : Bool, ∃ b, load_batch_x utterances false tm
        = some (Sum.inl b, utterances.map List.length)
      ∧ b.length = utterances.length) := by
  have hprops := padded_batch_props utterances c f hT hrect
  have hpb_ne : padded_batch utterances ≠ [] := by
    rw [Ne, padded_batch, List.map_eq_nil_iff]
    exact h0
  refine ⟨⟨collapse (padded_batch utterances) true,
    (load_batch_x_eq utterances true h0).2, ?_, ?_⟩,
    fun tm => ⟨padded_batch utterances,
      (load_batch_x_eq utterances tm h0).1, by simp [padded_batch]⟩⟩
  · rw [collapse_true_eq, swap01_length]
    cases hpb : padded_batch utterances with
    | nil => exact absurd hpb hpb_ne
    | cons p0 ps =>
      rw [List.map_cons, List.headD_cons]
      have hp0 := hprops p0 (by rw [hpb]; simp)
      rw [collapse_elem_length p0 (by rw [hp0.2]; exact hc)]
      exact hp0.1
  · intro row hrow
    rw [collapse_true_eq] at hrow
    rw [swap01_row_length _ _ row hrow, List.length_map, padded_batch,
      List.length_map]

theorem load_batch_x_time_major_witness :
    (∃ b, load_batch_x [[[[(1 : ℚ)]], [[2]], [[3]]], [[[4]]]] true true
        = some (Sum.inr b, ([[[[(1 : ℚ)]], [[2]], [[3]]], [[[4]]]] : Arr4).map
            List.length)
      ∧ b.length = max_len_of [[[[(1 : ℚ)]], [[2]], [[3]]], [[[4]]]]
      ∧ ∀ row ∈ b,
          row.length = ([[[[(1 : ℚ)]], [[2]], [[3]]], [[[4]]]] : Arr4).length)
    ∧ (∀ tm : Bool, ∃ b,
        load_batch_x [[[[(1 : ℚ)]], [[2]], [[3]]], [[[4]]]] false tm
          = some (Sum.inl b, ([[[[(1 : ℚ)]], [[2]], [[3]]], [[[4]]]] : Arr4).map
              List.length)
      ∧ b.length = ([[[[(1 : ℚ)]], [[2]], [[3]]], [[[4]]]] : Arr4).length) :=
  load_batch_x_time_major [[[[(1 : ℚ)]], [[2]], [[3]]], [[[4]]]] 1 1
    (by omega) (by simp) (by decide) (by decide)

/-! `get_prefixes` traverses the file system via `os.walk`; the traversal is
modelled by its result, the list of `(root, filenames)` pairs, with paths
and names as character lists. -/

abbrev Str := List Char

/-- `filename.split(".")[0]`: the characters before the first period (the
whole name when there is none). -/
def prefix_of (filename : Str) : Str :=
  filename.takeWhile (fun ch => ch != '.')

/-- `os.path.join(root, name)`. -/
def path_join (root name : Str) : Str := root ++ '/' :: name

/-- The double loop of `get_prefixes`: for every directory visited by
`os.walk` and every filename in it ending with `extension`, append the
joined root and pre-period prefix, in traversal order. -/
def walk_prefixes (walk : List (Str × List Str)) (extension : Str) :
    List Str :=
  (walk.map (fun rf =>
    (rf.2.filter (fun fn => extension.isSuffixOf fn)).map
      (fun fn => path_join rf.1 (prefix_of fn)))).flatten

/-- `get_prefixes(dirname, extension)` from `src/utils.py`, as a function of
the `os.walk` output: `sorted(prefixes)` of the collected prefixes (Python's
`sorted` is a stable comparison sort; insertion sort here). -/
def get_prefixes (walk : List (Str × List Str)) (extension : Str) :
    List Str :=
  (walk_prefixes walk extension).insertionSort (· ≤ ·)

/-- C9 counterexample: with one directory `d` holding the two files
`a.x.n` and `a.y.n` and extension `.n`, both files match and share the
pre-period prefix `a`, so `get_prefixes` returns `d/a` twice — the result is
not duplicate-free, contradicting the claimed uniqueness. -/
theorem get_prefixes_unique_cex :
    ¬ (get_prefixes
        [(['d'], [['a', '.', 'x', '.', 'n'], ['a', '.', 'y', '.', 'n']])]
        ['.', 'n']).Nodup := by
  decide

/-- C9 (amended): `get_prefixes` returns a sorted list with one entry per
file whose name ends with the extension — each entry the containing
directory joined with the filename's part before its first period —
duplicates retained when two distinct matching files share a prefix; an
identifier occurs in the result exactly when some visited directory holds a
matching file yielding it. -/
theorem get_prefixes_correct (walk : List (Str × List Str))
    (extension : Str) :
    List.Sorted (· ≤ ·) (get_prefixes walk extension)
    ∧ List.Perm (get_prefixes walk extension) (walk_prefixes walk extension)
    ∧ ∀ s : Str, s ∈ get_prefixes walk extension ↔
        ∃ p ∈ walk, ∃ fn ∈ p.2, extension.isSuffixOf fn
          ∧ s = path_join p.1 (prefix_of fn) := by
  have hperm := List.perm_insertionSort (α := Str) (· ≤ ·)
    (walk_prefixes walk extension)
  refine ⟨List.sorted_insertionSort (· ≤ ·) _, hperm, ?_⟩
  intro s
  rw [show get_prefixes walk extension
      = (walk_prefixes walk extension).insertionSort (· ≤ ·) from rfl,
    hperm.mem_iff]
  unfold walk_prefixes
  constructor
  · intro hmem
    obtain ⟨l, hl, hs⟩ := List.mem_flatten.mp hmem
    obtain ⟨rf, hrf, rfl⟩ := List.mem_map.mp hl
    obtain ⟨fn, hfn, rfl⟩ := List.mem_map.mp hs
    rw [List.mem_filter] at hfn
    exact ⟨rf, hrf, fn, hfn.1, hfn.2, rfl⟩
  · rintro ⟨p, hp, fn, hfn, hsuf, rfl⟩
    refine List.mem_flatten.mpr ⟨_, List.mem_map.mpr ⟨p, hp, rfl⟩, ?_⟩
    exact List.mem_map.mpr ⟨fn, List.mem_filter.mpr ⟨hfn, hsuf⟩, rfl⟩

end Persephone
